import Mathlib

/-!
Verification of the `@alg/stream` lazy sequence combinators.

This file is a shallow embedding of the stream operators found in the
repository's source (the current `main.js` together with the earlier
revision that still exported `windowed`).  Finite source sequences are
modelled as `List`s; draining a produced generator is modelled as the
list of yielded elements paired with an optional error message thrown
mid-drain.  Eager, call-time argument validation is modelled with
`Except`: an operator that throws before returning its generator is an
`Except.error` at construction, while a generator function always
returns `Except.ok` and carries any pull-time error inside the drain.
JavaScript `undefined`/`null` element values, where they matter
(`chunk`'s `padEnd` strategy uses nullish coalescing), are modelled as
`Option` with `none` for the nullish values.
-/

namespace AlgStream

/-- `take(iterable, limit)` from the current `main.js`: throws
"Cannot take < 0 items" at call time for negative limits, otherwise
defers to the built-in iterator helper `Iterator.prototype.take`. -/
def take {α : Type} (s : List α) (limit : Int) : Except String (List α) :=
  if limit < 0 then .error "Cannot take < 0 items"
  else .ok (s.take limit.toNat)

/-- `take(iterable, limit)` from the earlier revision: no explicit check;
the built-in `Iterator.prototype.take` itself throws a `RangeError` at
the call for negative limits. -/
def takeOld {α : Type} (s : List α) (limit : Int) : Except String (List α) :=
  if limit < 0 then .error "RangeError"
  else .ok (s.take limit.toNat)

/-- `drop(iterable, limit)` from the current `main.js`: throws
"Cannot drop < 0 items" at call time for negative limits, otherwise
defers to the built-in `Iterator.prototype.drop`. -/
def drop {α : Type} (s : List α) (limit : Int) : Except String (List α) :=
  if limit < 0 then .error "Cannot drop < 0 items"
  else .ok (s.drop limit.toNat)

/-- The rotated read `arr.slice(front).concat(arr.slice(0, front))` used
by `window` to present its circular buffer oldest-to-newest. -/
def rot {α : Type} (l : List α) (n : Nat) : List α :=
  l.drop n ++ l.take n

/-- The sliding phase of `window`: for each further source element,
overwrite the logically oldest slot at `front`, advance `front` by one
modulo `size`, and yield the rotated copy of the buffer. -/
def windowLoop {α : Type} (size : Nat) (arr : List α) (front : Nat) :
    List α → List (List α)
  | [] => []
  | e :: rest =>
    let arr' := arr.set front e
    let front' := (front + 1) % size
    rot arr' front' :: windowLoop size arr' front' rest

/-- The generator body shared by `window` (current) and `windowed`
(earlier revision): pull `size` elements into a buffer; if the source
ran out first yield nothing, otherwise yield a copy of the buffer and
enter the sliding phase. -/
def windowBody {α : Type} (s : List α) (size : Nat) : List (List α) :=
  let arr := s.take size
  if arr.length < size then []
  else arr :: windowLoop size arr 0 (s.drop size)

/-- `window(iterable, size)` from the current `main.js`: validates
`size <= 0` eagerly, before returning the inner generator. -/
def window {α : Type} (s : List α) (size : Int) :
    Except String (List (List α) × Option String) :=
  if size ≤ 0 then .error "Cannot yield sliding windows of size <= 0"
  else .ok (windowBody s size.toNat, none)

/-- `windowed(iterable, size)` from the earlier revision: a generator
function, so its construction never throws.  Its own check covers only
`size === 0` and runs at first pull; for negative sizes the un-guarded
`take` primitive throws a `RangeError`, again at first pull. -/
def windowed {α : Type} (s : List α) (size : Int) :
    Except String (List (List α) × Option String) :=
  .ok <|
    if size = 0 then ([], some "Cannot yield sliding windows of size 0")
    else if size < 0 then ([], some "RangeError")
    else (windowBody s size.toNat, none)

/-- The accumulation loop of `chunk`: push each element onto the current
buffer, yielding and resetting the buffer whenever it reaches `size`.
Returns the yielded full chunks and the leftover partial buffer. -/
def chunkLoop {α : Type} (size : Nat) (arr : List α) :
    List α → List (List α) × List α
  | [] => ([], arr)
  | e :: rest =>
    let arr' := arr ++ [e]
    if arr'.length = size then
      let r := chunkLoop size [] rest
      (arr' :: r.1, r.2)
    else chunkLoop size arr' rest

/-- JavaScript nullish coalescing `e ?? fillValue` over `Option`-modelled
values (`none` is `undefined`/`null`). -/
def coalesce {β : Type} (e fill : Option β) : Option β :=
  match e with
  | some v => some v
  | none => fill

/-- The generator body of `chunk(iterable, size, {strategy, fillValue})`
from the current `main.js`: yield full chunks, then handle the leftover
according to `strategy` — `keepEnd` yields it as-is, `padEnd` extends it
to `size` (array-length extension fills with `undefined`) and maps
`e ?? fillValue` over every slot, `strict` throws, and any other string
(including the documented default `dropEnd`) silently discards it. -/
def chunkBody {β : Type} (s : List (Option β)) (size : Nat)
    (strategy : String) (fillValue : Option β) :
    List (List (Option β)) × Option String :=
  let r := chunkLoop size [] s
  if strategy == "keepEnd" && !r.2.isEmpty then
    (r.1 ++ [r.2], none)
  else if strategy == "padEnd" && !r.2.isEmpty then
    (r.1 ++ [(r.2 ++ List.replicate (size - r.2.length) none).map
      (fun e => coalesce e fillValue)], none)
  else if strategy == "strict" && !r.2.isEmpty then
    (r.1, some "Incomplete chunk")
  else
    (r.1, none)

/-- `chunk(iterable, size, {strategy, fillValue})` from the current
`main.js`: validates `size <= 0` eagerly, before returning the inner
generator. -/
def chunk {β : Type} (s : List (Option β)) (size : Int)
    (strategy : String) (fillValue : Option β) :
    Except String (List (List (Option β)) × Option String) :=
  if size ≤ 0 then .error "Cannot yield chunks of size <= 0"
  else .ok (chunkBody s size.toNat strategy fillValue)

/-- Reference description of sliding: each step drops the oldest element
of the previous window and appends the newly pulled element. -/
def slideSpec {α : Type} : List α → List α → List (List α)
  | _, [] => []
  | w, e :: rest =>
    let w' := w.drop 1 ++ [e]
    w' :: slideSpec w' rest

/-- Reference grouping used to state `chunk`'s behavior: full groups of
`size` in order plus the leftover tail shorter than `size`. -/
def chunksOf {α : Type} (size : Nat) (s : List α) : List (List α) × List α :=
  if h : size = 0 ∨ s.length < size then ([], s)
  else
    let r := chunksOf size (s.drop size)
    (s.take size :: r.1, r.2)
termination_by s.length
decreasing_by
  simp only [not_or, not_lt] at h
  simpa using Nat.sub_lt_self (Nat.pos_of_ne_zero h.1) h.2

/-- The fold loop shared by both call forms of `scan`: each source
element produces `acc = accumulator(acc, e, i)`, yields it, and bumps
the index by one. -/
def scanLoop {α : Type} (f : α → α → Nat → α) (acc : α) (i : Nat) :
    List α → List α
  | [] => []
  | e :: rest =>
    let acc' := f acc e i
    acc' :: scanLoop f acc' (i + 1) rest

/-- `scan(iterable, accumulator, initial)` from the current `main.js`:
with an initial value (`initial !== undefined`, modelled as `some`) the
fold starts from it at index 0 without yielding it; without one the
first source element is pulled, yielded as the seed, and the fold
starts at index 1; an empty source then yields nothing. -/
def scan {α : Type} (s : List α) (f : α → α → Nat → α)
    (initial : Option α) : List α :=
  match initial with
  | some init => scanLoop f init 0 s
  | none =>
    match s with
    | [] => []
    | a :: rest => a :: scanLoop f a 1 rest

/-- The comparison loop of `dedup`: an element is yielded, and becomes
the remembered `last`, exactly when `eq e last` is false. -/
def dedupLoop {α : Type} (eq : α → α → Bool) (last : α) :
    List α → List α
  | [] => []
  | e :: rest =>
    if eq e last then dedupLoop eq last rest
    else e :: dedupLoop eq e rest

/-- `dedup(iterable, {eq})` from the current `main.js`: yields the first
element unconditionally, then collapses contiguous runs using `eq`
(the caller-supplied option; the default is strict equality). -/
def dedup {α : Type} (s : List α) (eq : α → α → Bool) : List α :=
  match s with
  | [] => []
  | a :: rest => a :: dedupLoop eq a rest

/-- How a drained zip generator ended: clean termination, an error
thrown mid-drain, or fuel exhausted (the generator was still
producing — used to model non-terminating drains). -/
inductive ZipEnd where
  | finished
  | outOfFuel
  | failed (msg : String)
deriving DecidableEq, Repr

/-- One iteration of `zipShortest`'s loop: advance the sources in order,
returning on the first exhausted one, otherwise collecting the values
and the advanced sources.  With zero sources the result is the empty
tuple and the step always succeeds. -/
def zipShortestStep {α : Type} :
    List (List α) → Option (List α × List (List α))
  | [] => some ([], [])
  | [] :: _ => none
  | (a :: s) :: rest =>
    match zipShortestStep rest with
    | none => none
    | some (vs, rs) => some (a :: vs, s :: rs)

/-- Drain `zipShortest` for at most `fuel` pulls. -/
def zipShortestRun {α : Type} (fuel : Nat) (srcs : List (List α)) :
    List (List α) × ZipEnd :=
  match fuel with
  | 0 => ([], .outOfFuel)
  | fuel + 1 =>
    match zipShortestStep srcs with
    | none => ([], .finished)
    | some (vs, rs) =>
      let r := zipShortestRun fuel rs
      (vs :: r.1, r.2)

/-- One iteration of `zipStrict`'s loop: advance every source, counting
the exhausted ones (`done`) and collecting the values of the live ones
in source order, together with the advanced sources. -/
def zipStrictNexts {α : Type} :
    List (List α) → List α × Nat × List (List α)
  | [] => ([], 0, [])
  | [] :: rest =>
    let r := zipStrictNexts rest
    (r.1, r.2.1 + 1, [] :: r.2.2)
  | (a :: s) :: rest =>
    let r := zipStrictNexts rest
    (a :: r.1, r.2.1, s :: r.2.2)

/-- Drain `zipStrict` for at most `fuel` pulls: a pull with `done = 0`
yields the tuple, with every source exhausted it terminates cleanly,
and otherwise it throws the length-mismatch error. -/
def zipStrictRun {α : Type} (fuel : Nat) (srcs : List (List α)) :
    List (List α) × ZipEnd :=
  match fuel with
  | 0 => ([], .outOfFuel)
  | fuel + 1 =>
    let n := zipStrictNexts srcs
    if n.2.1 = 0 then
      let r := zipStrictRun fuel n.2.2
      (n.1 :: r.1, r.2)
    else if n.2.1 = srcs.length then ([], .finished)
    else ([], .failed "Zipped iterables of unequal length with strategy = strict")

/-- One iteration of `zipLongest`'s loop: advance every source, pushing
`fillValue` for the exhausted ones, counting them in `done`. -/
def zipLongestNexts {α : Type} (fill : Option α) :
    List (List α) → List (Option α) × Nat × List (List α)
  | [] => ([], 0, [])
  | [] :: rest =>
    let r := zipLongestNexts fill rest
    (fill :: r.1, r.2.1 + 1, [] :: r.2.2)
  | (a :: s) :: rest =>
    let r := zipLongestNexts fill rest
    (some a :: r.1, r.2.1, s :: r.2.2)

/-- Drain `zipLongest` for at most `fuel` pulls: terminates once every
source is exhausted, otherwise yields the (fill-completed) tuple. -/
def zipLongestRun {α : Type} (fuel : Nat) (fill : Option α)
    (srcs : List (List α)) : List (List (Option α)) × ZipEnd :=
  match fuel with
  | 0 => ([], .outOfFuel)
  | fuel + 1 =>
    let n := zipLongestNexts fill srcs
    if n.2.1 = srcs.length then ([], .finished)
    else
      let r := zipLongestRun fuel fill n.2.2
      (n.1 :: r.1, r.2)

/-- A drained `zip` result: `plain` tuples for the `shortest`/`strict`
strategies, fill-completed tuples for `longest`. -/
inductive ZipOut (α : Type) where
  | plain (ys : List (List α)) (e : ZipEnd)
  | filled (ys : List (List (Option α))) (e : ZipEnd)
deriving DecidableEq, Repr

/-- The `zip(...args)` dispatcher from the current `main.js`: with no
trailing options object the strategy defaults to `"shortest"`; the
switch selects the strategy generator, throwing at call time for an
unrecognised strategy string. -/
def zipRun {α : Type} (fuel : Nat) (srcs : List (List α))
    (strategy : Option String) (fill : Option α) :
    Except String (ZipOut α) :=
  match strategy.getD "shortest" with
  | "shortest" =>
    let r := zipShortestRun fuel srcs
    .ok (.plain r.1 r.2)
  | "longest" =>
    let r := zipLongestRun fuel fill srcs
    .ok (.filled r.1 r.2)
  | "strict" =>
    let r := zipStrictRun fuel srcs
    .ok (.plain r.1 r.2)
  | _ => .error "Unrecognised strategy"

/-- Reference pull semantics of `zip` with `strategy: "strict"`, stated
from the specification: while every source still has an element, yield
the tuple of their heads in source order; once every source is
simultaneously exhausted, stop cleanly; otherwise fail with the
length-mismatch error. -/
def zipStrictSpec {α : Type} (fuel : Nat) (srcs : List (List α)) :
    List (List α) × ZipEnd :=
  match fuel with
  | 0 => ([], .outOfFuel)
  | fuel + 1 =>
    if srcs.all fun s => !s.isEmpty then
      let r := zipStrictSpec fuel (srcs.map List.tail)
      ((srcs.filterMap List.head?) :: r.1, r.2)
    else if srcs.all List.isEmpty then ([], .finished)
    else ([], .failed "Zipped iterables of unequal length with strategy = strict")

/-- The built-in `Iterator.prototype.map` helper used by `map`: the
counter passed to the mapping increments once per element read from the
underlying iterator.  Returns the produced elements and the log of
`(element, index)` arguments passed to the mapping. -/
def mapLoop {α β : Type} (f : α → Nat → β) (i : Nat) :
    List α → List β × List (α × Nat)
  | [] => ([], [])
  | a :: rest =>
    let r := mapLoop f (i + 1) rest
    (f a i :: r.1, (a, i) :: r.2)

/-- `map(iterable, mapping)` (built-in backed), drained completely. -/
def mapRun {α β : Type} (f : α → Nat → β) (s : List α) :
    List β × List (α × Nat) :=
  mapLoop f 0 s

/-- The built-in `Iterator.prototype.filter` helper used by `filter`:
the counter passed to the predicate increments once per element read
from the underlying iterator, whether or not the element is kept. -/
def filterLoop {α : Type} (p : α → Nat → Bool) (i : Nat) :
    List α → List α × List (α × Nat)
  | [] => ([], [])
  | a :: rest =>
    let r := filterLoop p (i + 1) rest
    ((if p a i then a :: r.1 else r.1), (a, i) :: r.2)

/-- `filter(iterable, predicate)` (built-in backed), drained completely. -/
def filterRun {α : Type} (p : α → Nat → Bool) (s : List α) :
    List α × List (α × Nat) :=
  filterLoop p 0 s

/-- `peek(iterable, consumer)` from the current `main.js`: the consumer
is called on every element before it is yielded unchanged, with an
index incremented once per element. -/
def peekLoop {α : Type} (i : Nat) : List α → List α × List (α × Nat)
  | [] => ([], [])
  | a :: rest =>
    let r := peekLoop (i + 1) rest
    (a :: r.1, (a, i) :: r.2)

/-- `peek`, drained completely. -/
def peekRun {α : Type} (s : List α) : List α × List (α × Nat) :=
  peekLoop 0 s

/-- `flatMap(iterable, mapping)` from the current `main.js`: the mapping
is called once per source element with an index incremented once per
source element, and its whole result is yielded before advancing. -/
def flatMapLoop {α β : Type} (f : α → Nat → List β) (i : Nat) :
    List α → List β × List (α × Nat)
  | [] => ([], [])
  | a :: rest =>
    let r := flatMapLoop f (i + 1) rest
    (f a i ++ r.1, (a, i) :: r.2)

/-- `flatMap`, drained completely. -/
def flatMapRun {α β : Type} (f : α → Nat → List β) (s : List α) :
    List β × List (α × Nat) :=
  flatMapLoop f 0 s

/-- `takeWhile(iterable, predicate)` from the current `main.js`: the
index is incremented only after a yield, so the predicate invocation on
a candidate element sees the number of elements produced so far. -/
def takeWhileLoop {α : Type} (p : α → Nat → Bool) (i : Nat) :
    List α → List α × List (α × Nat)
  | [] => ([], [])
  | a :: rest =>
    if p a i then
      let r := takeWhileLoop p (i + 1) rest
      (a :: r.1, (a, i) :: r.2)
    else ([], [(a, i)])

/-- `takeWhile`, drained completely. -/
def takeWhileRun {α : Type} (p : α → Nat → Bool) (s : List α) :
    List α × List (α × Nat) :=
  takeWhileLoop p 0 s

/-- `dropWhile(iterable, predicate)` from the current `main.js`: the
predicate sees the index of the skipped elements; once it fails, that
element and the rest are yielded without further predicate calls. -/
def dropWhileLoop {α : Type} (p : α → Nat → Bool) (i : Nat) :
    List α → List α × List (α × Nat)
  | [] => ([], [])
  | a :: rest =>
    if p a i then
      let r := dropWhileLoop p (i + 1) rest
      (r.1, (a, i) :: r.2)
    else (a :: rest, [(a, i)])

/-- `dropWhile`, drained completely. -/
def dropWhileRun {α : Type} (p : α → Nat → Bool) (s : List α) :
    List α × List (α × Nat) :=
  dropWhileLoop p 0 s

/-- A model of the JavaScript values the equality collaborator is used
on: numbers, a nullish value, and objects.  An object carries an
identity (`id`, deciding `===`), whether it exposes a callable `equals`
method, and that method's behavior as the set of object identities it
accepts. -/
inductive JSVal where
  | num (n : Int)
  | nullish
  | obj (id : Nat) (hasEq : Bool) (eqIds : List Nat)
deriving DecidableEq, Repr

/-- JavaScript strict equality `===` on the modelled values: numbers by
value, objects by identity. -/
def strictEq : JSVal → JSVal → Bool
  | .num a, .num b => a == b
  | .nullish, .nullish => true
  | .obj i _ _, .obj j _ _ => i == j
  | _, _ => false

/-- The method call `a.equals(b)` of a modelled object. -/
def callEqMethod (eqIds : List Nat) : JSVal → Bool
  | .obj j _ _ => eqIds.contains j
  | _ => false

/-- The `equals` collaborator:
`left === right || (typeof left.equals === "function" && left.equals(right))`.
Reading `left.equals` on a nullish `left` throws a `TypeError`. -/
def jsEquals (a b : JSVal) : Except String Bool :=
  if strictEq a b then .ok true
  else
    match a with
    | .nullish => .error "TypeError"
    | .num _ => .ok false
    | .obj _ hasEq eqIds => if hasEq then .ok (callEqMethod eqIds b) else .ok false

/-- The `equals` collaborator used as a boolean comparator, on values
where it does not throw. -/
def jsEqualsBool (a b : JSVal) : Bool :=
  match jsEquals a b with
  | .ok v => v
  | .error _ => false

/-- `dedup`'s actual default comparator from the current `main.js`:
`(left, right) => left === right`, plain strict equality. -/
def dedupDefaultEq (a b : JSVal) : Bool :=
  strictEq a b

/-! Auxiliary lemmas about the circular window buffer. -/

theorem rot_zero {α : Type} (l : List α) : rot l 0 = l := by
  simp [rot]

theorem rot_set {α : Type} (arr : List α) (front : Nat) (e : α)
    (h : front < arr.length) :
    rot (arr.set front e) ((front + 1) % arr.length)
      = (rot arr front).drop 1 ++ [e] := by
  have hset := List.set_eq_take_cons_drop e h
  have hdropf := List.drop_eq_getElem_cons h
  rcases Nat.lt_or_ge (front + 1) arr.length with hlt | hge
  · have hm : (front + 1) % arr.length = front + 1 := Nat.mod_eq_of_lt hlt
    have hlen : (arr.take front ++ [e]).length = front + 1 := by
      simp [Nat.min_eq_left (Nat.le_of_lt h)]
    have hassoc : arr.take front ++ e :: arr.drop (front + 1)
        = (arr.take front ++ [e]) ++ arr.drop (front + 1) := by simp
    rw [hm, hset]
    unfold rot
    rw [hassoc, List.drop_left' hlen, List.take_left' hlen, hdropf]
    simp only [List.cons_append, List.drop_succ_cons, List.drop_zero,
      List.append_assoc]
  · have hfe : front + 1 = arr.length := Nat.le_antisymm h hge
    have hm : (front + 1) % arr.length = 0 := by
      rw [hfe]; exact Nat.mod_self _
    have hD : arr.drop (front + 1) = [] :=
      List.drop_eq_nil_of_le (Nat.le_of_eq hfe.symm)
    rw [hm, hset, hD]
    unfold rot
    rw [hdropf, hD]
    simp

theorem windowLoop_eq_slide {α : Type} (size : Nat) (rest : List α) :
    ∀ (arr : List α) (front : Nat), arr.length = size → front < size →
      windowLoop size arr front rest = slideSpec (rot arr front) rest := by
  induction rest with
  | nil => intro arr front _ _; rfl
  | cons e rest ih =>
    intro arr front harr hfront
    have hsize : 0 < size := Nat.lt_of_le_of_lt (Nat.zero_le _) hfront
    have hf : front < arr.length := by rw [harr]; exact hfront
    have hrot := rot_set arr front e hf
    rw [harr] at hrot
    simp only [windowLoop, slideSpec]
    rw [hrot, ih (arr.set front e) ((front + 1) % size)
      (by simp [harr]) (Nat.mod_lt _ hsize), hrot]

theorem slideSpec_windows {α : Type} (s : List α) (k : Nat) (hk : 1 ≤ k) :
    ∀ (n i : Nat), i + k ≤ s.length → n = s.length - (i + k) →
      slideSpec ((s.drop i).take k) (s.drop (i + k)) =
        (List.range n).map fun j => (s.drop (i + 1 + j)).take k := by
  intro n
  induction n with
  | zero =>
    intro i _ hn
    have hnil : s.drop (i + k) = [] := List.drop_eq_nil_of_le (by omega)
    rw [hnil]
    simp [slideSpec]
  | succ n ih =>
    intro i hik hn
    have hlt : i + k < s.length := by omega
    have hne : s.drop (i + k) ≠ [] := by
      rw [ne_eq, List.drop_eq_nil_iff]; omega
    rcases hd : s.drop (i + k) with _ | ⟨x, tl⟩
    · exact absurd hd hne
    have htl : tl = s.drop (i + k + 1) := by
      have h1 : s.drop (i + k + 1) = (s.drop (i + k)).drop 1 := by
        rw [List.drop_drop]
      rw [h1, hd]
      rfl
    have hw : ((s.drop i).take k).drop 1 ++ [x] = (s.drop (i + 1)).take k := by
      have h1 : ((s.drop i).take k).drop 1 = (s.drop (i + 1)).take (k - 1) := by
        rw [List.drop_take, List.drop_drop]
      have hk1 : k = (k - 1) + 1 := by omega
      have h2 : (s.drop (i + 1)).take k
          = (s.drop (i + 1)).take (k - 1) ++ ((s.drop (i + 1)).drop (k - 1)).take 1 := by
        conv_lhs => rw [hk1]
        rw [List.take_add]
      have h3 : (s.drop (i + 1)).drop (k - 1) = s.drop (i + k) := by
        rw [List.drop_drop]
        congr 1
        omega
      rw [h1, h2, h3, hd]
      rfl
    simp only [slideSpec]
    rw [hw, htl]
    have hik1 : i + k + 1 = (i + 1) + k := by omega
    rw [hik1, ih (i + 1) (by omega) (by omega)]
    rw [List.range_succ_eq_map]
    simp only [List.map_cons, List.map_map]
    congr 1
    apply List.map_congr_left
    intro j _
    simp only [Function.comp_apply, Function.comp]
    congr 2
    omega

theorem windowBody_eq {α : Type} (s : List α) (k : Nat) (hk : 1 ≤ k) :
    windowBody s k
      = (List.range (s.length + 1 - k)).map fun i => (s.drop i).take k := by
  rcases Nat.lt_or_ge s.length k with hlt | hge
  · have h1 : (s.take k).length < k := by
      simp only [List.length_take]
      omega
    have h2 : s.length + 1 - k = 0 := by omega
    simp [windowBody, h2, hlt]
  · have h1 : ¬ (s.take k).length < k := by
      simp only [List.length_take]
      omega
    have harr : (s.take k).length = k := by
      simp only [List.length_take]
      omega
    simp only [windowBody, if_neg h1]
    rw [windowLoop_eq_slide k (s.drop k) (s.take k) 0 harr hk, rot_zero]
    have htk : s.take k = (s.drop 0).take k := by rw [List.drop_zero]
    have hdk : s.drop k = s.drop (0 + k) := by rw [Nat.zero_add]
    rw [htk, hdk, slideSpec_windows s k hk (s.length - k) 0 (by omega) (by omega)]
    have hr : s.length + 1 - k = (s.length - k) + 1 := by omega
    rw [hr, List.range_succ_eq_map]
    simp only [List.map_cons, List.map_map, List.drop_zero]
    congr 1
    apply List.map_congr_left
    intro j _
    simp only [Function.comp_apply, Function.comp]
    congr 2
    omega

/-! Auxiliary lemmas about zip, scan, dedup, chunk and the callback
index counters. -/

theorem zipStrictNexts_eq {α : Type} (srcs : List (List α)) :
    zipStrictNexts srcs
      = (srcs.filterMap List.head?, srcs.countP List.isEmpty,
          srcs.map List.tail) := by
  induction srcs with
  | nil => rfl
  | cons s rest ih =>
    cases s with
    | nil =>
      simp only [zipStrictNexts, ih, List.filterMap_cons, List.head?_nil,
        List.countP_cons, List.isEmpty_nil, List.map_cons, List.tail_nil]
      simp
    | cons a s =>
      simp only [zipStrictNexts, ih, List.filterMap_cons, List.head?_cons,
        List.countP_cons, List.isEmpty_cons, List.map_cons, List.tail_cons]
      simp

theorem zipStrictRun_eq_spec {α : Type} (fuel : Nat) :
    ∀ srcs : List (List α), zipStrictRun fuel srcs = zipStrictSpec fuel srcs := by
  induction fuel with
  | zero => intro srcs; rfl
  | succ fuel ih =>
    intro srcs
    rw [zipStrictRun, zipStrictSpec, zipStrictNexts_eq]
    by_cases hall : srcs.all (fun s => !s.isEmpty) = true
    · have hz : srcs.countP List.isEmpty = 0 := by
        rw [List.countP_eq_zero]
        intro a ha
        have := List.all_eq_true.mp hall a ha
        simpa using this
      rw [if_pos hall]
      simp [hz, ih]
    · have hex : ∃ a ∈ srcs, a.isEmpty := by
        rcases List.all_eq_false.mp (Bool.eq_false_iff.mpr hall) with ⟨a, ha, hpa⟩
        exact ⟨a, ha, by simpa using hpa⟩
      have hnz : srcs.countP List.isEmpty ≠ 0 := by
        have : 0 < srcs.countP List.isEmpty := List.countP_pos_iff.mpr hex
        omega
      rw [if_neg hall]
      by_cases hall2 : srcs.all List.isEmpty = true
      · have hl : srcs.countP List.isEmpty = srcs.length :=
          List.countP_eq_length.mpr (List.all_eq_true.mp hall2)
        have hnn : srcs ≠ [] := by
          intro hc
          rw [hc] at hnz
          exact hnz rfl
        rw [if_pos hall2]
        simp [hnz, hl, hnn]
      · have hl : srcs.countP List.isEmpty ≠ srcs.length := by
          intro hc
          exact hall2 (List.all_eq_true.mpr (List.countP_eq_length.mp hc))
        rw [if_neg hall2]
        simp [hnz, hl]

theorem zipShortestStep_nil {α : Type} :
    zipShortestStep ([] : List (List α)) = some ([], []) := rfl

theorem zipShortestRun_nil {α : Type} (fuel : Nat) :
    zipShortestRun fuel ([] : List (List α))
      = (List.replicate fuel [], ZipEnd.outOfFuel) := by
  induction fuel with
  | zero => rfl
  | succ fuel ih =>
    rw [zipShortestRun, zipShortestStep_nil]
    simp [ih, List.replicate_succ]

theorem scanLoop_length {α : Type} (f : α → α → Nat → α) :
    ∀ (l : List α) (acc : α) (i : Nat), (scanLoop f acc i l).length = l.length := by
  intro l
  induction l with
  | nil => intro acc i; rfl
  | cons e rest ih =>
    intro acc i
    simp only [scanLoop, List.length_cons, ih]

theorem scanLoop_indices :
    ∀ (l : List Nat) (acc i : Nat),
      scanLoop (fun _ _ j => j) acc i l = List.range' i l.length := by
  intro l
  induction l with
  | nil => intro acc i; rfl
  | cons e rest ih =>
    intro acc i
    simp only [scanLoop, ih, List.length_cons, List.range'_succ]

theorem dedupLoop_eq_destutter' {α : Type} (eq : α → α → Bool) :
    ∀ (l : List α) (last : α),
      last :: dedupLoop eq last l
        = List.destutter' (fun a b => eq b a = false) last l := by
  intro l
  induction l with
  | nil => intro last; rfl
  | cons e rest ih =>
    intro last
    rw [List.destutter'_cons]
    by_cases he : eq e last = false
    · rw [if_pos he]
      have hne : ¬ eq e last = true := by simp [he]
      simp only [dedupLoop, if_neg hne]
      rw [← ih e]
    · have he' : eq e last = true := by
        cases hv : eq e last
        · exact absurd hv he
        · rfl
      rw [if_neg he]
      simp only [dedupLoop, if_pos he']
      rw [← ih last]

theorem dedup_eq_destutter {α : Type} (eq : α → α → Bool) (s : List α) :
    dedup s eq = s.destutter fun a b => eq b a = false := by
  cases s with
  | nil => rfl
  | cons a rest =>
    simp only [dedup, List.destutter, dedupLoop_eq_destutter']

theorem chunkLoop_eq_chunksOf {α : Type} (size : Nat) :
    ∀ (s arr : List α), arr.length < size →
      chunkLoop size arr s = chunksOf size (arr ++ s) := by
  intro s
  induction s with
  | nil =>
    intro arr harr
    rw [chunksOf]
    rw [dif_pos (Or.inr (by simpa using harr))]
    simp [chunkLoop]
  | cons e rest ih =>
    intro arr harr
    by_cases hfull : (arr ++ [e]).length = size
    · have hcons : arr ++ e :: rest = (arr ++ [e]) ++ rest := by simp
      have hsz : ¬ (size = 0 ∨ (arr ++ [e] ++ rest).length < size) := by
        simp only [List.length_append, List.length_cons,
          List.length_nil] at hfull ⊢
        omega
      rw [chunkLoop, if_pos hfull, hcons, chunksOf, dif_neg hsz]
      rw [List.take_left' hfull, List.drop_left' hfull]
      simp only [ih [] (by simp only [List.length_nil]; omega), List.nil_append]
    · have hlt : (arr ++ [e]).length < size := by
        simp at hfull harr ⊢
        omega
      rw [chunkLoop, if_neg hfull, ih (arr ++ [e]) hlt]
      simp

theorem mapLoop_log {α β : Type} (f : α → Nat → β) :
    ∀ (l : List α) (i : Nat),
      (mapLoop f i l).2 = l.zip (List.range' i l.length) := by
  intro l
  induction l with
  | nil => intro i; rfl
  | cons a rest ih =>
    intro i
    simp only [mapLoop, ih, List.length_cons, List.range'_succ, List.zip_cons_cons]

theorem filterLoop_log {α : Type} (p : α → Nat → Bool) :
    ∀ (l : List α) (i : Nat),
      (filterLoop p i l).2 = l.zip (List.range' i l.length) := by
  intro l
  induction l with
  | nil => intro i; rfl
  | cons a rest ih =>
    intro i
    simp only [filterLoop, ih, List.length_cons, List.range'_succ, List.zip_cons_cons]

theorem peekLoop_log {α : Type} :
    ∀ (l : List α) (i : Nat),
      (peekLoop i l).2 = l.zip (List.range' i l.length) := by
  intro l
  induction l with
  | nil => intro i; rfl
  | cons a rest ih =>
    intro i
    simp only [peekLoop, ih, List.length_cons, List.range'_succ, List.zip_cons_cons]

theorem flatMapLoop_log {α β : Type} (f : α → Nat → List β) :
    ∀ (l : List α) (i : Nat),
      (flatMapLoop f i l).2 = l.zip (List.range' i l.length) := by
  intro l
  induction l with
  | nil => intro i; rfl
  | cons a rest ih =>
    intro i
    simp only [flatMapLoop, ih, List.length_cons, List.range'_succ, List.zip_cons_cons]

theorem takeWhileLoop_log_indices {α : Type} (p : α → Nat → Bool) :
    ∀ (l : List α) (i : Nat),
      (takeWhileLoop p i l).2.map Prod.snd
        = List.range' i (takeWhileLoop p i l).2.length := by
  intro l
  induction l with
  | nil => intro i; rfl
  | cons a rest ih =>
    intro i
    by_cases hp : p a i = true
    · simp only [takeWhileLoop, if_pos hp, List.map_cons, List.length_cons,
        List.range'_succ, ih]
    · simp only [takeWhileLoop, if_neg hp, List.map_cons, List.map_nil,
        List.length_cons, List.length_nil, List.range'_succ, List.range'_zero]

theorem dropWhileLoop_log_indices {α : Type} (p : α → Nat → Bool) :
    ∀ (l : List α) (i : Nat),
      (dropWhileLoop p i l).2.map Prod.snd
        = List.range' i (dropWhileLoop p i l).2.length := by
  intro l
  induction l with
  | nil => intro i; rfl
  | cons a rest ih =>
    intro i
    by_cases hp : p a i = true
    · simp only [dropWhileLoop, if_pos hp, List.map_cons, List.length_cons,
        List.range'_succ, ih]
    · simp only [dropWhileLoop, if_neg hp, List.map_cons, List.map_nil,
        List.length_cons, List.length_nil, List.range'_succ, List.range'_zero]

/-! Claim theorems. -/

/-- C1: for every finite source `s` and window size `k ≥ 1`, `window`
succeeds and yields exactly `max(0, length s - k + 1)` windows (here
`s.length + 1 - k` in truncated subtraction), the `i`-th being the
slice `s[i..i+k)`; every yielded window has length `k`. -/
theorem c1_window_count_and_contents {α : Type} (s : List α) (k : Nat)
    (hk : 1 ≤ k) :
    window s (k : Int)
        = .ok ((List.range (s.length + 1 - k)).map fun i => (s.drop i).take k,
            none)
      ∧ ∀ w ∈ (List.range (s.length + 1 - k)).map fun i => (s.drop i).take k,
          w.length = k := by
  constructor
  · have hnot : ¬ ((k : Int) ≤ 0) := by omega
    rw [window, if_neg hnot]
    have htn : ((k : Int)).toNat = k := by omega
    rw [htn, windowBody_eq s k hk]
  · intro w hw
    rcases List.mem_map.mp hw with ⟨i, hi, rfl⟩
    rw [List.mem_range] at hi
    simp only [List.length_take, List.length_drop]
    omega

/-- C1 witness: `window` on a four-element source with size 2 yields the
three expected windows. -/
theorem c1_window_count_and_contents_witness :
    window ([10, 20, 30, 40] : List Nat) ((2 : Nat) : Int)
      = .ok ([[10, 20], [20, 30], [30, 40]], none) := by
  have h := c1_window_count_and_contents ([10, 20, 30, 40] : List Nat) 2
    (by decide)
  rw [h.1]
  rfl

/-- C2: `zip` with strategy `strict` agrees at every pull with the
specified case analysis — while every source still has an element it
yields the tuple of their values in source order; when all sources are
exhausted at the same step it terminates cleanly; as soon as some but
not all are exhausted it raises the length-mismatch error.  Concretely,
on sources of lengths [4, 3] it yields 3 tuples then raises on the 4th
pull, and on lengths [3, 3] it yields 3 tuples and finishes cleanly. -/
theorem c2_zip_strict :
    (∀ (α : Type) (fuel : Nat) (srcs : List (List α)),
        zipStrictRun fuel srcs = zipStrictSpec fuel srcs)
    ∧ zipRun 4 ([[0, 1, 2, 3], [10, 11, 12]] : List (List Nat))
        (some "strict") none
        = .ok (.plain [[0, 10], [1, 11], [2, 12]]
            (.failed "Zipped iterables of unequal length with strategy = strict"))
    ∧ zipRun 4 ([[0, 1, 2], [10, 11, 12]] : List (List Nat))
        (some "strict") none
        = .ok (.plain [[0, 10], [1, 11], [2, 12]] .finished) :=
  ⟨fun _ fuel srcs => zipStrictRun_eq_spec fuel srcs, rfl, rfl⟩

/-- C3: `scan` without an initial value yields nothing on an empty
source and otherwise yields the first element as the seed; with an
initial value it folds starting from it without yielding it (output
length equals source length, first output `f initial e 0`).  The index
passed to the fold increments by exactly 1 per fold application,
starting at 0 when `initial` is given and at 1 when the seed came from
the first element, as the runs with the index-reflecting fold show. -/
theorem c3_scan :
    (∀ (α : Type) (f : α → α → Nat → α), scan [] f none = [])
    ∧ (∀ (α : Type) (f : α → α → Nat → α) (a : α) (rest : List α),
        (scan (a :: rest) f none).length = rest.length + 1
        ∧ (scan (a :: rest) f none).head? = some a)
    ∧ (∀ (α : Type) (f : α → α → Nat → α) (s : List α) (init : α),
        (scan s f (some init)).length = s.length)
    ∧ (∀ (α : Type) (f : α → α → Nat → α) (init e : α) (rest : List α),
        (scan (e :: rest) f (some init)).head? = some (f init e 0))
    ∧ (∀ (s : List Nat) (b : Nat),
        scan s (fun _ _ i => i) (some b) = List.range' 0 s.length)
    ∧ (∀ (a : Nat) (rest : List Nat),
        scan (a :: rest) (fun _ _ i => i) none
          = a :: List.range' 1 rest.length) := by
  refine ⟨fun α f => rfl, ?_, ?_, ?_, ?_, ?_⟩
  · intro α f a rest
    exact ⟨by simp [scan, scanLoop_length], by simp [scan]⟩
  · intro α f s init
    simp [scan, scanLoop_length]
  · intro α f init e rest
    simp [scan, scanLoop]
  · intro s b
    simp [scan, scanLoop_indices]
  · intro a rest
    simp [scan, scanLoop_indices]

/-- C4 counterexample: the claim says the `size ≤ 0` error is raised at
the call for the `windowed` variant too, but `windowed` is a generator
function: `windowed([1], 0)` succeeds at construction (no call-time
error) and only carries the error into the first pull of the drain. -/
theorem c4_counterexample :
    windowed ([1] : List Nat) 0
      = .ok ([], some "Cannot yield sliding windows of size 0") := rfl

/-- C4 (amended): for every `size ≤ 0`, `window` and `chunk` raise
their invalid-argument errors eagerly, at the call itself, before any
element is pulled.  The `windowed` variant does not: its construction
always succeeds, and the error is raised only at first pull — its own
invalid-argument error for `size = 0`, and the take primitive's range
error for negative sizes. -/
theorem c4_size_validation {α β : Type} (s : List α) (t : List (Option β))
    (strategy : String) (fill : Option β) (size : Int) (hs : size ≤ 0) :
    window s size = .error "Cannot yield sliding windows of size <= 0"
    ∧ chunk t size strategy fill = .error "Cannot yield chunks of size <= 0"
    ∧ windowed s size
        = .ok ([], some (if size = 0
            then "Cannot yield sliding windows of size 0"
            else "RangeError")) := by
  refine ⟨?_, ?_, ?_⟩
  · rw [window, if_pos hs]
  · rw [chunk, if_pos hs]
  · rw [windowed]
    by_cases h0 : size = 0
    · rw [if_pos h0, if_pos h0]
    · rw [if_neg h0, if_neg h0, if_pos (by omega : size < 0)]

/-- C4 witness: at size -2, `window` and `chunk` fail eagerly while
`windowed` constructs successfully with the range error deferred to the
first pull. -/
theorem c4_size_validation_witness :
    window ([1] : List Nat) (-2)
        = .error "Cannot yield sliding windows of size <= 0"
    ∧ chunk ([some 1] : List (Option Nat)) (-2) "dropEnd" none
        = .error "Cannot yield chunks of size <= 0"
    ∧ windowed ([1] : List Nat) (-2) = .ok ([], some "RangeError") := by
  have h := c4_size_validation ([1] : List Nat) ([some 1] : List (Option Nat))
    "dropEnd" none (-2) (by decide)
  refine ⟨h.1, h.2.1, ?_⟩
  rw [h.2.2]
  rfl

/-- C5 counterexample: `filter`'s predicate does not see a counter that
increments per produced element, and `filter` is not the documented
`dropWhile` exception.  On source [5, 6] with predicate `e == 6` the
indices passed are [0, 1] (one per consumed element), while the number
of elements produced before each of the two invocations is 0 both
times. -/
theorem c5_counterexample :
    ¬ ((filterRun (fun (e : Nat) (_ : Nat) => e == 6) [5, 6]).2.map Prod.snd
        = (List.range 2).map fun j =>
            (filterRun (fun (e : Nat) (_ : Nat) => e == 6)
              ([5, 6].take j)).1.length) := by
  decide

/-- C5 (amended): every callback index counter starts at 0 and
increments by exactly 1 per callback invocation.  For `map`, `filter`,
`peek` and `flatMap` the invocation log pairs each consumed source
element with its source position — so for `filter` (and `flatMap`,
whose produced elements are the flattened inner ones) the index counts
consumed source elements, not produced elements; for `takeWhile` and
`dropWhile` the logged index sequence is likewise 0, 1, 2, …. -/
theorem c5_callback_indices :
    (∀ (α β : Type) (f : α → Nat → β) (s : List α),
        (mapRun f s).2 = s.zip (List.range' 0 s.length))
    ∧ (∀ (α : Type) (p : α → Nat → Bool) (s : List α),
        (filterRun p s).2 = s.zip (List.range' 0 s.length))
    ∧ (∀ (α : Type) (s : List α),
        (peekRun s).2 = s.zip (List.range' 0 s.length))
    ∧ (∀ (α β : Type) (f : α → Nat → List β) (s : List α),
        (flatMapRun f s).2 = s.zip (List.range' 0 s.length))
    ∧ (∀ (α : Type) (p : α → Nat → Bool) (s : List α),
        (takeWhileRun p s).2.map Prod.snd
          = List.range' 0 (takeWhileRun p s).2.length)
    ∧ (∀ (α : Type) (p : α → Nat → Bool) (s : List α),
        (dropWhileRun p s).2.map Prod.snd
          = List.range' 0 (dropWhileRun p s).2.length) :=
  ⟨fun _ _ f s => mapLoop_log f s 0,
   fun _ p s => filterLoop_log p s 0,
   fun _ s => peekLoop_log s 0,
   fun _ _ f s => flatMapLoop_log f s 0,
   fun _ p s => takeWhileLoop_log_indices p s 0,
   fun _ p s => dropWhileLoop_log_indices p s 0⟩

/-- C6: `dedup` is exactly Mathlib's contiguous-run collapse
(`destutter`) keyed on the injected inequality — the first element is
kept unconditionally and each later element is kept, becoming the new
"last", precisely when `eq` reports it unequal to the last kept — and
the spec's example collapses as stated, preserving non-adjacent
repeats. -/
theorem c6_dedup :
    (∀ (α : Type) (eq : α → α → Bool) (s : List α),
        dedup s eq = s.destutter fun a b => eq b a = false)
    ∧ dedup [1, 2, 2, 3, 3, 3, 4, 4, 4, 4, 3, 3, 3, 2, 2, 1]
        (fun a b => a == b) = [1, 2, 3, 4, 3, 2, 1] :=
  ⟨fun _ eq s => dedup_eq_destutter eq s, by decide⟩

/-- C7: `take` and `drop` raise their invalid-argument errors at the
call for negative limits (the earlier revision's `take` fails there too,
with the built-in's range error); for non-negative limits they yield
the first-n / all-but-first-n elements, so a limit above the source
length makes `take` yield the whole source and `drop` yield nothing. -/
theorem c7_take_drop {α : Type} (s : List α) (n : Int) :
    (n < 0 →
      take s n = .error "Cannot take < 0 items"
      ∧ drop s n = .error "Cannot drop < 0 items"
      ∧ takeOld s n = .error "RangeError")
    ∧ (0 ≤ n →
      take s n = .ok (s.take n.toNat) ∧ drop s n = .ok (s.drop n.toNat))
    ∧ ((s.length : Int) < n → take s n = .ok s ∧ drop s n = .ok []) := by
  refine ⟨?_, ?_, ?_⟩
  · intro hn
    exact ⟨by rw [take, if_pos hn], by rw [drop, if_pos hn],
      by rw [takeOld, if_pos hn]⟩
  · intro hn
    have h : ¬ n < 0 := by omega
    exact ⟨by rw [take, if_neg h], by rw [drop, if_neg h]⟩
  · intro hn
    have h : ¬ n < 0 := by omega
    have hlen : s.length ≤ n.toNat := by omega
    exact ⟨by rw [take, if_neg h, List.take_of_length_le hlen],
      by rw [drop, if_neg h, List.drop_eq_nil_of_le hlen]⟩

/-- C7 witness: the negative-limit errors and the above-length
behaviors at concrete inputs. -/
theorem c7_take_drop_witness :
    take ([7, 8] : List Nat) (-1) = .error "Cannot take < 0 items"
    ∧ drop ([7, 8] : List Nat) (-1) = .error "Cannot drop < 0 items"
    ∧ takeOld ([7, 8] : List Nat) (-1) = .error "RangeError"
    ∧ take ([7, 8] : List Nat) 5 = .ok [7, 8]
    ∧ drop ([7, 8] : List Nat) 5 = .ok [] := by
  have h1 := (c7_take_drop ([7, 8] : List Nat) (-1)).1 (by decide)
  have h2 := (c7_take_drop ([7, 8] : List Nat) 5).2.2 (by decide)
  exact ⟨h1.1, h1.2.1, h1.2.2, h2.1, h2.2⟩

/-- C8 counterexample: two distinct objects that accept each other via
their `equals` methods.  `dedup`'s actual default comparator (plain
strict equality) keeps both, whereas the `equals` collaborator used as
the comparator collapses them — so the default comparator does not
behave like the collaborator, contrary to the claim. -/
theorem c8_counterexample :
    dedup [JSVal.obj 0 true [1], JSVal.obj 1 true [0]] dedupDefaultEq
      ≠ dedup [JSVal.obj 0 true [1], JSVal.obj 1 true [0]] jsEqualsBool := by
  decide

/-- C8 (amended): the `equals` collaborator satisfies its contract —
true on strict equality; otherwise, for an object, the result of its
callable `equals` method when it has one and false when it does not;
false for a non-object left operand; but a type error for a nullish
left operand.  `dedup`'s default `eq`, however, is plain strict
equality, not the collaborator: on the two mutually-`equals` objects it
keeps both. -/
theorem c8_equals_contract :
    (∀ a b : JSVal, strictEq a b = true → jsEquals a b = .ok true)
    ∧ (∀ (i : Nat) (hasE : Bool) (ids : List Nat) (b : JSVal),
        strictEq (.obj i hasE ids) b = false →
          jsEquals (.obj i hasE ids) b = .ok (hasE && callEqMethod ids b))
    ∧ (∀ (n : Int) (b : JSVal), strictEq (.num n) b = false →
        jsEquals (.num n) b = .ok false)
    ∧ (∀ b : JSVal, strictEq .nullish b = false →
        jsEquals .nullish b = .error "TypeError")
    ∧ (∀ a b : JSVal, dedupDefaultEq a b = strictEq a b)
    ∧ dedup [JSVal.obj 0 true [1], JSVal.obj 1 true [0]] dedupDefaultEq
        = [JSVal.obj 0 true [1], JSVal.obj 1 true [0]] := by
  refine ⟨?_, ?_, ?_, ?_, fun a b => rfl, by decide⟩
  · intro a b h
    simp [jsEquals, h]
  · intro i hasE ids b h
    cases hasE <;> simp [jsEquals, h]
  · intro n b h
    simp [jsEquals, h]
  · intro b h
    simp [jsEquals, h]

/-- C8 witness: the contract cases at concrete values. -/
theorem c8_equals_contract_witness :
    jsEquals (JSVal.num 3) (JSVal.num 3) = .ok true
    ∧ jsEquals (JSVal.obj 0 true [1]) (JSVal.obj 1 false []) = .ok true
    ∧ jsEquals (JSVal.num 3) (JSVal.num 4) = .ok false
    ∧ jsEquals .nullish (JSVal.num 3) = .error "TypeError" := by
  have h := c8_equals_contract
  refine ⟨h.1 (JSVal.num 3) (JSVal.num 3) (by decide), ?_,
    h.2.2.1 3 (JSVal.num 4) (by decide),
    h.2.2.2.1 (JSVal.num 3) (by decide)⟩
  have h2 := h.2.1 0 true [1] (JSVal.obj 1 false []) (by decide)
  simpa using h2

/-- C9: `zip` invoked with zero source sequences and no options object
(so the default `shortest` strategy) never terminates: for every number
of pulls `n`, the drain yields `n` empty tuples and is still
producing. -/
theorem c9_zip_no_sources (n : Nat) :
    zipRun n ([] : List (List Nat)) none none
      = .ok (.plain (List.replicate n []) .outOfFuel) := by
  have hred : zipRun n ([] : List (List Nat)) none none
      = .ok (.plain (zipShortestRun n ([] : List (List Nat))).1
          (zipShortestRun n ([] : List (List Nat))).2) := rfl
  rw [hred, zipShortestRun_nil]

/-- C10 counterexample: `padEnd` does not merely pad the incomplete
trailing group with `fillValue` — nullish coalescing is applied to
every slot, so a nullish element already inside the group is replaced
too: on source `[null]` with size 2 and fill 7 the yielded group is
`[7, 7]`, not the `[null, 7]` the claim describes. -/
theorem c10_counterexample :
    chunk ([none] : List (Option Nat)) 2 "padEnd" (some 7)
        = .ok ([[some 7, some 7]], none)
    ∧ chunk ([none] : List (Option Nat)) 2 "padEnd" (some 7)
        ≠ .ok ([[none, some 7]], none) := by
  refine ⟨rfl, ?_⟩
  intro hc
  have h1 : ([[some 7, some 7]] : List (List (Option Nat)))
      = [[none, some 7]] := by
    have h0 : chunk ([none] : List (Option Nat)) 2 "padEnd" (some 7)
        = .ok ([[some 7, some 7]], none) := rfl
    rw [h0] at hc
    exact congrArg Prod.fst (Except.ok.inj hc)
  simp at h1

/-- C10 (amended): `chunk` never validates its strategy: every strategy
string other than `keepEnd`, `padEnd` and `strict` (misspellings, and
the documented default `dropEnd` alike) behaves identically to
`dropEnd`, silently discarding the incomplete trailing group and
yielding exactly the full groups without raising; and the undocumented
`padEnd` strategy yields the trailing group extended to `size` with
nullish coalescing against `fillValue` applied to every slot (nullish
elements inside the group are replaced as well). -/
theorem c10_chunk_strategies {β : Type} (s : List (Option β)) (size : Int)
    (strategy : String) (fill : Option β)
    (h1 : strategy ≠ "keepEnd") (h2 : strategy ≠ "padEnd")
    (h3 : strategy ≠ "strict") :
    chunk s size strategy fill = chunk s size "dropEnd" fill
    ∧ (1 ≤ size →
        chunk s size strategy fill = .ok ((chunksOf size.toNat s).1, none)
        ∧ chunk s size "padEnd" fill
          = .ok ((chunksOf size.toNat s).1
              ++ (if (chunksOf size.toNat s).2.isEmpty then []
                  else [((chunksOf size.toNat s).2
                      ++ List.replicate
                        (size.toNat - (chunksOf size.toNat s).2.length)
                        none).map fun e => coalesce e fill]), none)) := by
  have hb1 : (strategy == "keepEnd") = false := beq_eq_false_iff_ne.mpr h1
  have hb2 : (strategy == "padEnd") = false := beq_eq_false_iff_ne.mpr h2
  have hb3 : (strategy == "strict") = false := beq_eq_false_iff_ne.mpr h3
  constructor
  · rw [chunk, chunk]
    by_cases hsz : size ≤ 0
    · rw [if_pos hsz, if_pos hsz]
    · rw [if_neg hsz, if_neg hsz]
      simp [chunkBody, hb1, hb2, hb3]
  · intro hsz
    have hszn : ¬ size ≤ 0 := by omega
    have hpos : 0 < size.toNat := by omega
    have hloop : chunkLoop size.toNat [] s = chunksOf size.toNat s := by
      have h := chunkLoop_eq_chunksOf size.toNat s []
        (by simp only [List.length_nil]; omega)
      simpa using h
    constructor
    · rw [chunk, if_neg hszn]
      simp [chunkBody, hb1, hb2, hb3, hloop]
    · rw [chunk, if_neg hszn]
      by_cases hleft : (chunksOf size.toNat s).2.isEmpty
      · simp [chunkBody, hloop, hleft]
      · simp [chunkBody, hloop, hleft]

/-- C10 witness: a bogus strategy behaves like `dropEnd` (yields only
the full groups, no error), and `padEnd` pads the trailing group. -/
theorem c10_chunk_strategies_witness :
    chunk ([some 1, some 2, some 3] : List (Option Nat)) 2 "bogus" none
        = chunk ([some 1, some 2, some 3] : List (Option Nat)) 2 "dropEnd" none
    ∧ chunk ([some 1, some 2, some 3] : List (Option Nat)) 2 "bogus" none
        = .ok ([[some 1, some 2]], none)
    ∧ chunk ([some 1, some 2, some 3] : List (Option Nat)) 2 "padEnd" (some 9)
        = .ok ([[some 1, some 2], [some 3, some 9]], none) := by
  have h := c10_chunk_strategies ([some 1, some 2, some 3] : List (Option Nat))
    2 "bogus" none (by decide) (by decide) (by decide)
  have h2 := h.2 (by decide)
  have h9 := (c10_chunk_strategies
    ([some 1, some 2, some 3] : List (Option Nat)) 2 "bogus" (some 9)
    (by decide) (by decide) (by decide)).2 (by decide)
  have hc : chunksOf 2 ([some 1, some 2, some 3] : List (Option Nat))
      = ([[some 1, some 2]], [some 3]) := by
    rw [chunksOf]
    norm_num
    rw [chunksOf]
    norm_num
  refine ⟨h.1, ?_, ?_⟩
  · rw [h2.1]
    rw [show ((2 : Int)).toNat = 2 from rfl, hc]
  · rw [h9.2]
    rw [show ((2 : Int)).toNat = 2 from rfl, hc]
    rfl

end AlgStream
